import Mathlib

/-
Verification of the address-range permutation engine
(src/lib/dhcpsrv/address_range_permutation.{h,cc}).

The engine is a lazy Fisher-Yates shuffle over a contiguous IP address
range.  Its own code (constructor, `next`, `exhausted`) is embedded below
directly from the source.  The external collaborators used by that code
(`isc::asiolink::IOAddress`, `AddressRange`, `addrsInRange`,
`offsetAddress`) are not among the sources, so they are modelled from the
specification, as noted on each definition.
-/

set_option maxHeartbeats 1000000

namespace KeaPermutation

/-- Modelled from the spec: an address family is IPv4 or IPv6, determining
the address bit-width and the zero-address sentinel. -/
inductive Family where
  | v4 : Family
  | v6 : Family
deriving DecidableEq

/-- Modelled from the spec: bit width of an address family (4-byte or
16-byte linear space). -/
def Family.bits : Family → ℕ
  | .v4 => 32
  | .v6 => 128

/-- Modelled from the spec: `isc::asiolink::IOAddress` is not among the
sources; an address is its family together with its numeric value in the
family's linear address ordering. -/
structure IOAddress where
  family : Family
  val : ℕ
deriving DecidableEq

/-- Modelled from the spec: family test used by the code as
`range_.start_.isV4()`. -/
def IOAddress.isV4 (a : IOAddress) : Bool := a.family = Family.v4

/-- Modelled from the spec: the IPv4 all-zero address sentinel. -/
def IOAddress.IPV4_ZERO_ADDRESS : IOAddress := ⟨Family.v4, 0⟩

/-- Modelled from the spec: the IPv6 all-zero address sentinel. -/
def IOAddress.IPV6_ZERO_ADDRESS : IOAddress := ⟨Family.v6, 0⟩

/-- Modelled from the spec: `AddressRange` (dhcpsrv/address_range.h) is not
among the sources; it is an immutable pair of addresses.  Field names follow
the code's accesses `range_.start_` and `range_.end_`. -/
structure AddressRange where
  start_ : IOAddress
  end_ : IOAddress
deriving DecidableEq

/-- Modelled from the spec: a range is well-formed when both endpoints
belong to the same address family, start is at most end in the family's
linear order, and the numeric values fit the family's bit width. -/
def WellFormed (r : AddressRange) : Prop :=
  r.start_.family = r.end_.family ∧
  r.start_.val ≤ r.end_.val ∧
  r.end_.val < 2 ^ r.end_.family.bits

instance wellFormedDecidable (r : AddressRange) : Decidable (WellFormed r) := by
  unfold WellFormed
  infer_instance

/-- Modelled from the spec: `addrsInRange` (asiolink/addr_utilities) is not
among the sources; the spec defines the size as
`addressCount(range) = numeric(end) - numeric(start) + 1`, computed in a
width wide enough to hold the family's full address space. -/
def addrsInRange (r : AddressRange) : ℕ := r.end_.val - r.start_.val + 1

/-- Modelled from the spec: `offsetAddress` (asiolink/addr_utilities) is not
among the sources; it yields the natural address `start + position`. -/
def offsetAddress (a : IOAddress) (off : ℕ) : IOAddress := ⟨a.family, a.val + off⟩

/-- Lookup in the swap-record table, embedding `state_.find(loc)` on the
`std::map<uint64_t, IOAddress> state_` member: the first (and, as keys are
unique, only) entry whose key equals `loc`. -/
def mapFind : List (ℕ × IOAddress) → ℕ → Option IOAddress
  | [], _ => none
  | (k, v) :: rest, loc => if loc = k then some v else mapFind rest loc

/-- Insert-or-overwrite in the swap-record table, embedding lines 80-84 of
address_range_permutation.cc: `state_.insert(...)` when the key is absent,
`state_.at(next_loc) = cursor_address` when it is present. -/
def mapAssign : List (ℕ × IOAddress) → ℕ → IOAddress → List (ℕ × IOAddress)
  | [], loc, a => [(loc, a)]
  | (k, v) :: rest, loc, a =>
      if loc = k then (loc, a) :: rest else (k, v) :: mapAssign rest loc a

/-- Key list of the swap-record table. -/
def mapKeys (m : List (ℕ × IOAddress)) : List ℕ := m.map Prod.fst

/-- Bit width of the `uint64_t cursor_` member
(address_range_permutation.h line 105). -/
def cursorBits : ℕ := 64

/-- State of the engine: the members of class `AddressRangePermutation`
(address_range_permutation.h lines 96-115).  `cursor_` is a `uint64_t`, so
its values are kept below `2 ^ 64`; the pseudo-random generator member is
not part of the state here — each call to `next` instead receives the value
the generator would have produced. -/
structure AddressRangePermutation where
  range_ : AddressRange
  cursor_ : ℕ
  state_ : List (ℕ × IOAddress)
  done_ : Bool
deriving DecidableEq

/-- The constructor `AddressRangePermutation::AddressRangePermutation`
(address_range_permutation.cc lines 16-21): cursor is initialized to
`addrsInRange(range) - 1` stored into the `uint64_t` member (hence the
reduction modulo `2 ^ 64`), the swap-record table starts empty and the
exhaustion flag false. -/
def AddressRangePermutation.init (range : AddressRange) : AddressRangePermutation :=
  { range_ := range
  , cursor_ := (addrsInRange range - 1) % 2 ^ 64
  , state_ := []
  , done_ := false }

/-- The observer `AddressRangePermutation::exhausted`
(address_range_permutation.h lines 78-80): `return (done_);`.  It is a
`const` method whose body contains no assignment, so its embedding returns
the state unchanged alongside the flag. -/
def AddressRangePermutation.exhausted (p : AddressRangePermutation) :
    Bool × AddressRangePermutation :=
  (p.done_, p)

/-- The repeated resolve pattern of `next` (address_range_permutation.cc
lines 50-64 and 66-73): the swap-record entry for the position if present,
otherwise the natural address inferred by advancing the range start by the
position. -/
def resolveAddress (p : AddressRangePermutation) (loc : ℕ) : IOAddress :=
  (mapFind p.state_ loc).getD (offsetAddress p.range_.start_ loc)

/-- The operation `AddressRangePermutation::next`
(address_range_permutation.cc lines 23-90).  `pick` is the value drawn from
`dist(generator_)` (line 46).  Branches, in order:
exhausted (lines 27-30) returns the family's zero address with done true;
terminal (lines 32-36, `cursor_ == 0`) sets the flag and returns
`state_.at(0)`, whose failure on an absent key (`std::out_of_range`) is
`none`; the general step (lines 38-89) returns the address at the random
position, records the cursor position's address there, and decrements the
cursor. -/
def AddressRangePermutation.next (p : AddressRangePermutation) (pick : ℕ) :
    Option (IOAddress × Bool × AddressRangePermutation) :=
  if p.done_ then
    some ((if p.range_.start_.isV4 then IOAddress.IPV4_ZERO_ADDRESS
           else IOAddress.IPV6_ZERO_ADDRESS), true, p)
  else if p.cursor_ = 0 then
    match mapFind p.state_ 0 with
    | some a => some (a, true, { p with done_ := true })
    | none => none
  else
    some (resolveAddress p pick, false,
      { p with state_ := mapAssign p.state_ pick (resolveAddress p p.cursor_),
               cursor_ := p.cursor_ - 1 })

/-- The state after a general step of `next` with random position `pick`. -/
def stepState (p : AddressRangePermutation) (pick : ℕ) : AddressRangePermutation :=
  { p with state_ := mapAssign p.state_ pick (resolveAddress p p.cursor_),
           cursor_ := p.cursor_ - 1 }

/-- Two's-complement value of the C `int` (32 bits) obtained by converting
an unsigned value, as in the narrowing conversion of the `uint64_t`
expression `cursor_ - 1` in
`std::uniform_int_distribution<int> dist(0, cursor_ - 1);`
(address_range_permutation.cc line 45). -/
def toCInt (x : ℕ) : ℤ :=
  if x % 2 ^ 32 < 2 ^ 31 then ((x % 2 ^ 32 : ℕ) : ℤ)
  else ((x % 2 ^ 32 : ℕ) : ℤ) - 2 ^ 32

/-- Lower bound argument of the distribution on line 45: the literal `0`. -/
def distLowerBound : ℤ := 0

/-- Upper bound argument of the distribution on line 45: `cursor_ - 1`
computed in `uint64_t` arithmetic, then narrowed to `int`. -/
def distUpperBound (p : AddressRangePermutation) : ℤ :=
  toCInt ((p.cursor_ + 2 ^ 64 - 1) % 2 ^ 64)

/-- Runs a sequence of calls to `next`, one entry of `picks` per call (the
value the random source yields at that call; it is ignored by the exhausted
and terminal branches, as in the code).  Produces the list of
(address, done) results and the final state, or `none` if some call fails. -/
def run (p : AddressRangePermutation) : List ℕ →
    Option (List (IOAddress × Bool) × AddressRangePermutation)
  | [] => some ([], p)
  | pick :: rest =>
    match p.next pick with
    | none => none
    | some (a, d, p') =>
      match run p' rest with
      | none => none
      | some (outs, q) => some ((a, d) :: outs, q)

/-- A pick sequence is valid for a starting state when each pick consumed by
a general step lies in `[0, cursor - 1]` — the interval the code's random
distribution is meant to draw from. -/
def validPicks : AddressRangePermutation → List ℕ → Bool
  | _, [] => true
  | p, pick :: rest =>
      (if p.done_ = false ∧ p.cursor_ ≠ 0 then decide (pick + 1 ≤ p.cursor_) else true) &&
      (match p.next pick with
       | some (_, _, p') => validPicks p' rest
       | none => true)

/-- All addresses of a range in their natural order: position `i` holds
`start + i`. -/
def fullList (r : AddressRange) : List IOAddress :=
  (List.range (addrsInRange r)).map (offsetAddress r.start_)

/-- Scenario-A-style concrete range: 192.0.2.1 - 192.0.2.5 (size 5). -/
def r5 : AddressRange := ⟨⟨Family.v4, 3221225985⟩, ⟨Family.v4, 3221225989⟩⟩

/-- Its initial engine state. -/
def p4 : AddressRangePermutation := AddressRangePermutation.init r5

/-- A valid pick sequence of length 5 for `r5`. -/
def picks5 : List ℕ := [3, 1, 1, 0, 0]

/-- Scenario-B concrete range: 192.0.2.7 - 192.0.2.7 (size 1). -/
def rSB : AddressRange := ⟨⟨Family.v4, 3221225991⟩, ⟨Family.v4, 3221225991⟩⟩

/-- A second single-address range: 192.0.2.1 - 192.0.2.1 (size 1). -/
def rOne : AddressRange := ⟨⟨Family.v4, 3221225985⟩, ⟨Family.v4, 3221225985⟩⟩

/-- An IPv6 range with 2 ^ 64 + 1 addresses (:: up to ::1:0:0:0:0). -/
def rHugeA : AddressRange := ⟨⟨Family.v6, 0⟩, ⟨Family.v6, 2 ^ 64⟩⟩

/-- An IPv6 range with 2 ^ 64 + 2 addresses. -/
def rHugeB : AddressRange := ⟨⟨Family.v6, 0⟩, ⟨Family.v6, 2 ^ 64 + 1⟩⟩

/-- An IPv6 range with 2 ^ 31 + 2 addresses
(2001:db8:: - 2001:db8::8000:0001). -/
def rV6Big : AddressRange :=
  ⟨⟨Family.v6, 42540766411282592856903984951653826560⟩,
   ⟨Family.v6, 42540766411282592856903984951653826560 + 2 ^ 31 + 1⟩⟩

/-- An exhausted engine state over `r5`. -/
def pEx : AddressRangePermutation := ⟨r5, 0, [], true⟩

/-- The concrete result of `p4.next 2`. -/
def out9 : IOAddress × Bool × AddressRangePermutation :=
  (⟨Family.v4, 3221225987⟩, false,
   ⟨r5, 3, [(2, ⟨Family.v4, 3221225989⟩)], false⟩)

/-- The concrete outputs of `run p4 [3, 1]`. -/
def outsW : List (IOAddress × Bool) :=
  [(⟨Family.v4, 3221225988⟩, false), (⟨Family.v4, 3221225986⟩, false)]

/-- The concrete final state of `run p4 [3, 1]`. -/
def qW : AddressRangePermutation :=
  ⟨r5, 2, [(3, ⟨Family.v4, 3221225989⟩), (1, ⟨Family.v4, 3221225989⟩)], false⟩

/-- Loop invariant of a run of general steps over a well-formed range of
size `N`: `ret` is the list of addresses already returned.  Positions
`0 .. cursor` still hold pairwise distinct addresses, the occupants of the
live positions and the returned addresses partition the range, and once the
cursor reaches zero the swap table holds an entry for key 0. -/
structure Inv (r : AddressRange) (N : ℕ) (p : AddressRangePermutation)
    (ret : List IOAddress) : Prop where
  hrange : p.range_ = r
  hdone : p.done_ = false
  hcursor : p.cursor_ + ret.length + 1 = N
  hkey0 : p.cursor_ = 0 → mapFind p.state_ 0 ≠ none
  hinj : ∀ i j, i ≤ p.cursor_ → j ≤ p.cursor_ →
    resolveAddress p i = resolveAddress p j → i = j
  hretnd : ret.Nodup
  hdisj : ∀ i, i ≤ p.cursor_ → resolveAddress p i ∉ ret
  hunion : ∀ a, a ∈ fullList r ↔
    (∃ i, i ≤ p.cursor_ ∧ resolveAddress p i = a) ∨ a ∈ ret

/-- Sparsity invariant: the swap table has pairwise distinct keys, every key
is at most `N - 2`, and the cursor is at most `N - 1`. -/
def WInv (N : ℕ) (p : AddressRangePermutation) : Prop :=
  (mapKeys p.state_).Nodup ∧ (∀ k ∈ mapKeys p.state_, k + 2 ≤ N) ∧ p.cursor_ + 1 ≤ N

/-- Safety of the terminal branch: whenever an active state has cursor zero,
the swap table holds an entry for key 0, so `state_.at(0)` succeeds. -/
def SafeKey0 (p : AddressRangePermutation) : Prop :=
  p.done_ = false → p.cursor_ = 0 → mapFind p.state_ 0 ≠ none

theorem addrsInRange_pos (r : AddressRange) : 1 ≤ addrsInRange r :=
  Nat.le_add_left 1 _

theorem two_pow_64_eq : (2 : ℕ) ^ 64 = 18446744073709551616 := by norm_num

theorem init_cursor_eq_of_le (r : AddressRange) (h64 : addrsInRange r ≤ 2 ^ 64) :
    (AddressRangePermutation.init r).cursor_ = addrsInRange r - 1 := by
  show (addrsInRange r - 1) % 2 ^ 64 = addrsInRange r - 1
  have h1 : 1 ≤ addrsInRange r := addrsInRange_pos r
  have h2 := two_pow_64_eq
  apply Nat.mod_eq_of_lt
  omega

theorem mapFind_mapAssign_self (m : List (ℕ × IOAddress)) (loc : ℕ) (a : IOAddress) :
    mapFind (mapAssign m loc a) loc = some a := by
  induction m with
  | nil => simp [mapAssign, mapFind]
  | cons kv rest ih =>
    obtain ⟨k, v⟩ := kv
    by_cases h : loc = k
    · simp [mapAssign, h, mapFind]
    · simp [mapAssign, h, mapFind, ih]

theorem mapFind_mapAssign_ne (m : List (ℕ × IOAddress)) (loc k : ℕ) (a : IOAddress)
    (h : k ≠ loc) : mapFind (mapAssign m loc a) k = mapFind m k := by
  induction m with
  | nil => simp [mapAssign, mapFind, h]
  | cons kv rest ih =>
    obtain ⟨k', v⟩ := kv
    by_cases h' : loc = k'
    · subst h'
      simp [mapAssign, mapFind, h]
    · by_cases h'' : k = k'
      · subst h''
        simp [mapAssign, h', mapFind]
      · simp [mapAssign, h', mapFind, h'', ih]

theorem length_mapAssign (m : List (ℕ × IOAddress)) (loc : ℕ) (a : IOAddress) :
    (mapAssign m loc a).length ≤ m.length + 1 := by
  induction m with
  | nil => simp [mapAssign]
  | cons kv rest ih =>
    obtain ⟨k, v⟩ := kv
    by_cases h : loc = k
    · simp [mapAssign, h]
    · simp [mapAssign, h]
      omega

theorem mapFind_eq_none_iff (m : List (ℕ × IOAddress)) (k : ℕ) :
    mapFind m k = none ↔ k ∉ mapKeys m := by
  induction m with
  | nil => simp [mapFind, mapKeys]
  | cons kv rest ih =>
    obtain ⟨k', v⟩ := kv
    by_cases h : k = k'
    · simp [mapFind, mapKeys, h]
    · simp [mapFind, mapKeys, h, ih]

theorem mapKeys_mapAssign_found (m : List (ℕ × IOAddress)) (loc : ℕ) (a : IOAddress)
    (h : mapFind m loc ≠ none) : mapKeys (mapAssign m loc a) = mapKeys m := by
  induction m with
  | nil => simp [mapFind] at h
  | cons kv rest ih =>
    obtain ⟨k, v⟩ := kv
    by_cases h' : loc = k
    · simp [mapAssign, h', mapKeys]
    · simp [mapFind, h'] at h
      simp [mapAssign, h', mapKeys] at ih ⊢
      exact ih h

theorem mapKeys_mapAssign_not_found (m : List (ℕ × IOAddress)) (loc : ℕ) (a : IOAddress)
    (h : mapFind m loc = none) : mapKeys (mapAssign m loc a) = mapKeys m ++ [loc] := by
  induction m with
  | nil => simp [mapAssign, mapKeys]
  | cons kv rest ih =>
    obtain ⟨k, v⟩ := kv
    by_cases h' : loc = k
    · simp [mapFind, h'] at h
    · simp [mapFind, h'] at h
      simp [mapAssign, h', mapKeys] at ih ⊢
      exact ih h

theorem stepState_range (p : AddressRangePermutation) (pick : ℕ) :
    (stepState p pick).range_ = p.range_ := rfl

theorem stepState_done (p : AddressRangePermutation) (pick : ℕ) :
    (stepState p pick).done_ = p.done_ := rfl

theorem stepState_cursor (p : AddressRangePermutation) (pick : ℕ) :
    (stepState p pick).cursor_ = p.cursor_ - 1 := rfl

theorem stepState_state (p : AddressRangePermutation) (pick : ℕ) :
    (stepState p pick).state_ = mapAssign p.state_ pick (resolveAddress p p.cursor_) := rfl

theorem next_general (p : AddressRangePermutation) (pick : ℕ)
    (hd : p.done_ = false) (hc : p.cursor_ ≠ 0) :
    p.next pick = some (resolveAddress p pick, false, stepState p pick) := by
  simp [AddressRangePermutation.next, hd, hc, stepState]

theorem resolveAddress_stepState (p : AddressRangePermutation) (pick i : ℕ) :
    resolveAddress (stepState p pick) i =
      if i = pick then resolveAddress p p.cursor_ else resolveAddress p i := by
  by_cases h : i = pick
  · subst h
    simp [resolveAddress, stepState, mapFind_mapAssign_self]
  · simp only [resolveAddress, stepState_state, stepState_range, h, if_false]
    rw [mapFind_mapAssign_ne _ _ _ _ h]

/-- C2: code bug.  On the single-address range 192.0.2.7 - 192.0.2.7 the
first call to `next` reaches the `cursor_ == 0` branch with an empty
swap-record table and the unguarded `state_.at(0)` lookup fails
(`std::out_of_range`) instead of returning the natural address
`start + 0` = 192.0.2.7 with done = true. -/
theorem next_single_address_first_call_fails :
    WellFormed rSB ∧ addrsInRange rSB = 1 ∧
    AddressRangePermutation.next (AddressRangePermutation.init rSB) 0 = none := by
  decide

/-- C3: once the exhaustion flag is set, every further call to `next`
returns the family's zero address (IPv4 zero for a v4 range, IPv6 zero for
a v6 range) with done = true and leaves the whole engine state — cursor,
swap-record table, exhaustion flag — unchanged, for arbitrarily many
further calls. -/
theorem next_after_exhaustion_zero_idempotent (p : AddressRangePermutation)
    (hd : p.done_ = true) :
    (∀ pick, p.next pick = some
        ((if p.range_.start_.isV4 then IOAddress.IPV4_ZERO_ADDRESS
          else IOAddress.IPV6_ZERO_ADDRESS), true, p)) ∧
    (∀ picks : List ℕ, run p picks = some
        (picks.map (fun _ =>
          ((if p.range_.start_.isV4 then IOAddress.IPV4_ZERO_ADDRESS
            else IOAddress.IPV6_ZERO_ADDRESS), true)), p)) := by
  constructor
  · intro pick
    simp [AddressRangePermutation.next, hd]
  · intro picks
    induction picks with
    | nil => simp [run]
    | cons a rest ih => simp [run, AddressRangePermutation.next, hd, ih]

theorem next_after_exhaustion_zero_idempotent_witness :
    pEx.done_ = true ∧
    pEx.next 7 = some
      ((if pEx.range_.start_.isV4 then IOAddress.IPV4_ZERO_ADDRESS
        else IOAddress.IPV6_ZERO_ADDRESS), true, pEx) ∧
    run pEx [1, 2] = some
      ([1, 2].map (fun _ =>
        ((if pEx.range_.start_.isV4 then IOAddress.IPV4_ZERO_ADDRESS
          else IOAddress.IPV6_ZERO_ADDRESS), true)), pEx) :=
  ⟨rfl, (next_after_exhaustion_zero_idempotent pEx rfl).1 7,
   (next_after_exhaustion_zero_idempotent pEx rfl).2 [1, 2]⟩

/-- C4: the general step.  With the exhaustion flag unset and cursor
positive, for every pick the random source yields in [0, cursor - 1],
`next` returns the address currently at position pick (the swap-record
entry if present, otherwise the natural address start + pick) with
done = false; afterwards position pick holds the address that was at the
cursor position (insert-or-overwrite, all other table entries unchanged)
and the cursor has decreased by exactly one. -/
theorem next_general_step_spec (p : AddressRangePermutation) (pick : ℕ)
    (hd : p.done_ = false) (hc : p.cursor_ ≠ 0) (hp : pick + 1 ≤ p.cursor_) :
    ∃ p', p.next pick = some
        ((mapFind p.state_ pick).getD (offsetAddress p.range_.start_ pick), false, p') ∧
      mapFind p'.state_ pick = some
        ((mapFind p.state_ p.cursor_).getD (offsetAddress p.range_.start_ p.cursor_)) ∧
      (∀ k, k ≠ pick → mapFind p'.state_ k = mapFind p.state_ k) ∧
      p'.cursor_ + 1 = p.cursor_ ∧
      p'.done_ = false ∧ p'.range_ = p.range_ := by
  refine ⟨stepState p pick, ?_, ?_, ?_, ?_, ?_, ?_⟩
  · exact next_general p pick hd hc
  · rw [stepState_state]
    exact mapFind_mapAssign_self _ _ _
  · intro k hk
    rw [stepState_state]
    exact mapFind_mapAssign_ne _ _ _ _ hk
  · rw [stepState_cursor]
    omega
  · rw [stepState_done]
    exact hd
  · exact stepState_range p pick

theorem next_general_step_spec_witness :
    (p4.done_ = false ∧ p4.cursor_ ≠ 0 ∧ 2 + 1 ≤ p4.cursor_) ∧
    (∃ p', p4.next 2 = some
        ((mapFind p4.state_ 2).getD (offsetAddress p4.range_.start_ 2), false, p') ∧
      mapFind p'.state_ 2 = some
        ((mapFind p4.state_ p4.cursor_).getD (offsetAddress p4.range_.start_ p4.cursor_)) ∧
      (∀ k, k ≠ 2 → mapFind p'.state_ k = mapFind p4.state_ k) ∧
      p'.cursor_ + 1 = p4.cursor_ ∧
      p'.done_ = false ∧ p'.range_ = p4.range_) :=
  ⟨⟨by decide, by decide, by decide⟩,
   next_general_step_spec p4 2 (by decide) (by decide) (by decide)⟩

/-- C6: code bug.  On an IPv6 range with 2 ^ 31 + 2 addresses the first
call's distribution is constructed as
`std::uniform_int_distribution<int> dist(0, cursor_ - 1)` with
`cursor_ - 1 = 2 ^ 31`, which narrows to the `int` value `-2 ^ 31`: the
upper bound is below the lower bound 0 instead of equalling
`cursor_ - 1`. -/
theorem dist_upper_bound_overflows :
    WellFormed rV6Big ∧
    (AddressRangePermutation.init rV6Big).cursor_ = 2 ^ 31 + 1 ∧
    distUpperBound (AddressRangePermutation.init rV6Big) = -(2 ^ 31) ∧
    distUpperBound (AddressRangePermutation.init rV6Big) < distLowerBound := by
  decide

/-- C7 (amended): the cursor/position domain is the 64-bit `uint64_t`, not
at least 128 bits: the cursor always stays below 2 ^ 64, and range sizes of
at most 2 ^ 64 addresses are represented without truncation. -/
theorem cursor_width_64 (r : AddressRange) :
    (AddressRangePermutation.init r).cursor_ < 2 ^ cursorBits ∧
    (addrsInRange r ≤ 2 ^ cursorBits →
      (AddressRangePermutation.init r).cursor_ = addrsInRange r - 1) := by
  constructor
  · show (addrsInRange r - 1) % 2 ^ 64 < 2 ^ cursorBits
    unfold cursorBits
    have := two_pow_64_eq
    have h := Nat.mod_lt (addrsInRange r - 1) (y := 2 ^ 64) (by omega)
    omega
  · intro h64
    exact init_cursor_eq_of_le r h64

theorem cursor_width_64_witness :
    (AddressRangePermutation.init r5).cursor_ < 2 ^ cursorBits ∧
    (AddressRangePermutation.init r5).cursor_ = addrsInRange r5 - 1 :=
  ⟨(cursor_width_64 r5).1, (cursor_width_64 r5).2 (by decide)⟩

/-- C7 counterexample: a well-formed IPv6 range of 2 ^ 64 + 2 addresses
(within the 128-bit address space) whose size the 64-bit cursor cannot
represent: the constructor truncates and the cursor differs from
size - 1. -/
theorem cursor_truncates_above_64 :
    WellFormed rHugeB ∧ 2 ^ 64 < addrsInRange rHugeB ∧
    addrsInRange rHugeB ≤ 2 ^ 128 ∧
    (AddressRangePermutation.init rHugeB).cursor_ ≠ addrsInRange rHugeB - 1 := by
  decide

/-- C8 (amended): for every well-formed range of at most 2 ^ 64 addresses,
the constructor establishes cursor = addressCount(range) - 1, an empty
swap-record table and a cleared exhaustion flag (and, being a total
function, it does not fail). -/
theorem constructor_initial_state (r : AddressRange) (hw : WellFormed r)
    (h64 : addrsInRange r ≤ 2 ^ 64) :
    (AddressRangePermutation.init r).cursor_ = addrsInRange r - 1 ∧
    (AddressRangePermutation.init r).state_ = [] ∧
    (AddressRangePermutation.init r).done_ = false :=
  ⟨init_cursor_eq_of_le r h64, rfl, rfl⟩

theorem constructor_initial_state_witness :
    (WellFormed r5 ∧ addrsInRange r5 ≤ 2 ^ 64) ∧
    ((AddressRangePermutation.init r5).cursor_ = addrsInRange r5 - 1 ∧
     (AddressRangePermutation.init r5).state_ = [] ∧
     (AddressRangePermutation.init r5).done_ = false) :=
  ⟨⟨by decide, by decide⟩, constructor_initial_state r5 (by decide) (by decide)⟩

/-- C8 counterexample: a well-formed IPv6 range of 2 ^ 64 + 1 addresses for
which the constructor does not establish cursor = addressCount(range) - 1:
the value is truncated by the 64-bit cursor member. -/
theorem constructor_cursor_truncation :
    WellFormed rHugeA ∧
    (AddressRangePermutation.init rHugeA).state_ = [] ∧
    (AddressRangePermutation.init rHugeA).done_ = false ∧
    (AddressRangePermutation.init rHugeA).cursor_ ≠ addrsInRange rHugeA - 1 := by
  decide

/-- C9: `next` is the only mutator.  The `exhausted()` observer returns the
exhaustion flag and leaves the state unchanged, and no branch of `next`
ever modifies the stored address range. -/
theorem exhausted_and_next_frame (p : AddressRangePermutation) :
    (AddressRangePermutation.exhausted p).2 = p ∧
    (AddressRangePermutation.exhausted p).1 = p.done_ ∧
    ∀ pick out, p.next pick = some out → out.2.2.range_ = p.range_ := by
  refine ⟨rfl, rfl, ?_⟩
  intro pick out h
  unfold AddressRangePermutation.next at h
  by_cases hd : p.done_
  · simp [hd] at h
    rw [← h]
  · by_cases hc : p.cursor_ = 0
    · simp [hd, hc] at h
      cases hm : mapFind p.state_ 0 with
      | none => rw [hm] at h; cases h
      | some a =>
        rw [hm] at h
        cases h
        rfl
    · simp [hd, hc] at h
      rw [← h]

theorem exhausted_and_next_frame_witness :
    (AddressRangePermutation.exhausted p4).2 = p4 ∧ out9.2.2.range_ = p4.range_ :=
  ⟨(exhausted_and_next_frame p4).1,
   (exhausted_and_next_frame p4).2.2 2 out9 (by decide)⟩

theorem Inv.step {r : AddressRange} {N : ℕ} {p : AddressRangePermutation}
    {ret : List IOAddress} (hI : Inv r N p ret) (pick : ℕ)
    (hc : p.cursor_ ≠ 0) (hp : pick + 1 ≤ p.cursor_) :
    Inv r N (stepState p pick) (ret ++ [resolveAddress p pick]) := by
  obtain ⟨hrange, hdone, hcursor, hkey0, hinj, hretnd, hdisj, hunion⟩ := hI
  have hpc : pick < p.cursor_ := by omega
  refine ⟨?_, ?_, ?_, ?_, ?_, ?_, ?_, ?_⟩
  · rw [stepState_range]; exact hrange
  · rw [stepState_done]; exact hdone
  · rw [stepState_cursor]
    simp only [List.length_append, List.length_singleton]
    omega
  · rw [stepState_cursor, stepState_state]
    intro h0
    have hpick0 : pick = 0 := by omega
    subst hpick0
    rw [mapFind_mapAssign_self]
    simp
  · intro i j hi hj heq
    rw [stepState_cursor] at hi hj
    rw [resolveAddress_stepState, resolveAddress_stepState] at heq
    by_cases hip : i = pick <;> by_cases hjp : j = pick
    · rw [hip, hjp]
    · rw [if_pos hip, if_neg hjp] at heq
      have := hinj p.cursor_ j le_rfl (by omega) heq
      omega
    · rw [if_neg hip, if_pos hjp] at heq
      have := hinj i p.cursor_ (by omega) le_rfl heq
      omega
    · rw [if_neg hip, if_neg hjp] at heq
      exact hinj i j (by omega) (by omega) heq
  · refine List.Nodup.append hretnd (List.nodup_singleton _) ?_
    intro a ha hmem
    rw [List.mem_singleton] at hmem
    subst hmem
    exact hdisj pick (by omega) ha
  · intro i hi hmem
    rw [stepState_cursor] at hi
    rw [resolveAddress_stepState] at hmem
    rw [List.mem_append, List.mem_singleton] at hmem
    by_cases hip : i = pick
    · rw [if_pos hip] at hmem
      rcases hmem with hmem | hmem
      · exact hdisj p.cursor_ le_rfl hmem
      · have := hinj p.cursor_ pick le_rfl (by omega) hmem
        omega
    · rw [if_neg hip] at hmem
      rcases hmem with hmem | hmem
      · exact hdisj i (by omega) hmem
      · exact hip (hinj i pick (by omega) (by omega) hmem)
  · intro a
    rw [hunion a]
    constructor
    · rintro (⟨i, hi, hia⟩ | hmem)
      · by_cases hip : i = pick
        · subst hip
          exact Or.inr (List.mem_append.mpr (Or.inr (List.mem_singleton.mpr hia.symm)))
        · by_cases hicur : i = p.cursor_
          · subst hicur
            refine Or.inl ⟨pick, ?_, ?_⟩
            · rw [stepState_cursor]; omega
            · rw [resolveAddress_stepState, if_pos rfl]; exact hia
          · refine Or.inl ⟨i, ?_, ?_⟩
            · rw [stepState_cursor]; omega
            · rw [resolveAddress_stepState, if_neg hip]; exact hia
      · exact Or.inr (List.mem_append.mpr (Or.inl hmem))
    · rintro (⟨i, hi, hia⟩ | hmem)
      · rw [stepState_cursor] at hi
        rw [resolveAddress_stepState] at hia
        by_cases hip : i = pick
        · rw [if_pos hip] at hia
          exact Or.inl ⟨p.cursor_, le_rfl, hia⟩
        · rw [if_neg hip] at hia
          exact Or.inl ⟨i, by omega, hia⟩
      · rw [List.mem_append, List.mem_singleton] at hmem
        rcases hmem with hmem | hmem
        · exact Or.inr hmem
        · exact Or.inl ⟨pick, by omega, hmem.symm⟩

theorem resolveAddress_init (r : AddressRange) (i : ℕ) :
    resolveAddress (AddressRangePermutation.init r) i = offsetAddress r.start_ i := by
  simp [resolveAddress, AddressRangePermutation.init, mapFind]

theorem inv_init (r : AddressRange) (h2 : 2 ≤ addrsInRange r)
    (h64 : addrsInRange r ≤ 2 ^ 64) :
    Inv r (addrsInRange r) (AddressRangePermutation.init r) [] := by
  have hcur := init_cursor_eq_of_le r h64
  refine ⟨rfl, rfl, ?_, ?_, ?_, List.nodup_nil, ?_, ?_⟩
  · rw [hcur]
    simp
    omega
  · intro h0
    rw [hcur] at h0
    exact absurd h0 (by omega)
  · intro i j _ _ heq
    rw [resolveAddress_init, resolveAddress_init] at heq
    simp [offsetAddress, IOAddress.mk.injEq] at heq
    omega
  · intro i _
    simp
  · intro a
    simp only [fullList, List.mem_map, List.mem_range, resolveAddress_init,
      List.not_mem_nil, or_false]
    constructor
    · rintro ⟨i, hiN, hia⟩
      exact ⟨i, by rw [hcur]; omega, hia⟩
    · rintro ⟨i, hile, hia⟩
      rw [hcur] at hile
      exact ⟨i, by omega, hia⟩

theorem run_append_some {p q q2 : AddressRangePermutation}
    {outs outs2 : List (IOAddress × Bool)} (xs ys : List ℕ)
    (h1 : run p xs = some (outs, q)) (h2 : run q ys = some (outs2, q2)) :
    run p (xs ++ ys) = some (outs ++ outs2, q2) := by
  induction xs generalizing p outs with
  | nil =>
    simp [run] at h1
    obtain ⟨h1a, h1b⟩ := h1
    subst h1a
    subst h1b
    simpa using h2
  | cons x rest ih =>
    simp only [run] at h1
    cases hn : p.next x with
    | none => rw [hn] at h1; simp at h1
    | some out =>
      obtain ⟨a, d, p'⟩ := out
      rw [hn] at h1
      simp only [Option.some.injEq] at h1
      cases hr : run p' rest with
      | none => rw [hr] at h1; simp at h1
      | some res =>
        obtain ⟨outs1, q1⟩ := res
        rw [hr] at h1
        simp at h1
        obtain ⟨h1a, h1b⟩ := h1
        subst h1a
        subst h1b
        simp only [List.cons_append, run, hn, List.append_eq, ih hr]

theorem getD_take (l : List ℕ) : ∀ (n i : ℕ), i < n → (l.take n).getD i 0 = l.getD i 0 := by
  induction l with
  | nil => intro n i _; simp
  | cons a t ih =>
    intro n i hin
    cases n with
    | zero => omega
    | succ m =>
      rw [List.take_succ_cons]
      cases i with
      | zero => simp
      | succ j =>
        simp only [List.getD_cons_succ]
        exact ih m j (by omega)

theorem run_phase (r : AddressRange) (N : ℕ) (picks : List ℕ) :
    ∀ (p : AddressRangePermutation) (ret : List IOAddress),
      Inv r N p ret →
      picks.length ≤ p.cursor_ →
      (∀ i, i < picks.length → picks.getD i 0 + 1 ≤ p.cursor_ - i) →
      ∃ outs q,
        run p picks = some (outs, q) ∧
        outs.map Prod.snd = List.replicate picks.length false ∧
        q.cursor_ = p.cursor_ - picks.length ∧
        Inv r N q (ret ++ outs.map Prod.fst) := by
  induction picks with
  | nil =>
    intro p ret hI _ _
    exact ⟨[], p, by simp [run], by simp, by simp, by simpa using hI⟩
  | cons pk rest ih =>
    intro p ret hI hlen hbnd
    have hc : p.cursor_ ≠ 0 := by
      simp only [List.length_cons] at hlen
      omega
    have hp : pk + 1 ≤ p.cursor_ := by
      have h := hbnd 0 (by simp)
      simpa using h
    have hnext := next_general p pk hI.hdone hc
    have hI' := hI.step pk hc hp
    obtain ⟨outs, q, hrun, hsnd, hcur, hIq⟩ :=
      ih (stepState p pk) (ret ++ [resolveAddress p pk]) hI'
        (by rw [stepState_cursor]; simp only [List.length_cons] at hlen; omega)
        (by
          intro i hi
          rw [stepState_cursor]
          have h := hbnd (i + 1) (by simp only [List.length_cons]; omega)
          simp only [List.getD_cons_succ] at h
          omega)
    refine ⟨(resolveAddress p pk, false) :: outs, q, ?_, ?_, ?_, ?_⟩
    · simp only [run, hnext, hrun]
    · simp [hsnd, List.replicate_succ]
    · rw [hcur, stepState_cursor]
      simp only [List.length_cons]
      omega
    · simpa [List.append_assoc] using hIq

/-- C1 (amended): for every well-formed range whose size N satisfies
2 ≤ N ≤ 2 ^ 64, calling `next` exactly N times — each pick drawn from
[0, cursor - 1] — yields N pairwise-distinct addresses whose set equals the
full set of addresses in the range, with done = false on each of the first
N - 1 calls and done = true on the N-th. -/
theorem next_full_run_yields_permutation (r : AddressRange) (picks : List ℕ)
    (hw : WellFormed r) (h2 : 2 ≤ addrsInRange r) (h64 : addrsInRange r ≤ 2 ^ 64)
    (hlen : picks.length = addrsInRange r)
    (hbnd : ∀ i, i < addrsInRange r - 1 → picks.getD i 0 + 2 ≤ addrsInRange r - i) :
    ∃ outs q,
      run (AddressRangePermutation.init r) picks = some (outs, q) ∧
      outs.map Prod.snd = List.replicate (addrsInRange r - 1) false ++ [true] ∧
      (outs.map Prod.fst).Nodup ∧
      (∀ a, a ∈ outs.map Prod.fst ↔ a ∈ fullList r) := by
  have hcur := init_cursor_eq_of_le r h64
  have hI0 := inv_init r h2 h64
  have htl : (picks.take (addrsInRange r - 1)).length = addrsInRange r - 1 := by
    rw [List.length_take, hlen]
    omega
  obtain ⟨outs1, q, hrun1, hsnd1, hcur1, hIq⟩ :=
    run_phase r (addrsInRange r) (picks.take (addrsInRange r - 1))
      (AddressRangePermutation.init r) [] hI0
      (by rw [htl, hcur])
      (by
        intro i hi
        rw [htl] at hi
        rw [hcur, getD_take _ _ _ hi]
        have := hbnd i hi
        omega)
  rw [htl, hcur] at hcur1
  have hq0 : q.cursor_ = 0 := by omega
  have hkey := hIq.hkey0 hq0
  cases hm : mapFind q.state_ 0 with
  | none => exact absurd hm hkey
  | some a =>
    have hresq : resolveAddress q 0 = a := by simp [resolveAddress, hm]
    have hterm : q.next 0 = some (a, true, { q with done_ := true }) := by
      simp [AddressRangePermutation.next, hIq.hdone, hq0, hm]
    have hdlen : (picks.drop (addrsInRange r - 1)).length = 1 := by
      rw [List.length_drop, hlen]
      omega
    obtain ⟨c, hc⟩ := List.length_eq_one.mp hdlen
    have hterm' : q.next c = some (a, true, { q with done_ := true }) := by
      simp [AddressRangePermutation.next, hIq.hdone, hq0, hm]
    have hrun2 : run q [c] = some ([(a, true)], { q with done_ := true }) := by
      simp [run, hterm']
    have hr := run_append_some (picks.take (addrsInRange r - 1)) [c] hrun1 hrun2
    rw [← hc, List.take_append_drop] at hr
    refine ⟨outs1 ++ [(a, true)], { q with done_ := true }, hr, ?_, ?_, ?_⟩
    · rw [List.map_append, hsnd1, htl]
      simp
    · rw [List.map_append]
      refine List.Nodup.append ?_ (List.nodup_singleton _) ?_
      · have h := hIq.hretnd
        simpa using h
      · intro x hx hxs
        simp only [List.map_cons, List.map_nil, List.mem_singleton] at hxs
        subst hxs
        have hd0 := hIq.hdisj 0 (Nat.zero_le _)
        rw [hresq] at hd0
        simp only [List.nil_append] at hd0
        exact hd0 hx
    · intro x
      have hu := hIq.hunion x
      simp only [List.nil_append] at hu
      rw [List.map_append]
      constructor
      · intro hx
        rw [List.mem_append] at hx
        rcases hx with hx | hx
        · exact hu.mpr (Or.inr hx)
        · simp only [List.map_cons, List.map_nil, List.mem_singleton] at hx
          subst hx
          exact hu.mpr (Or.inl ⟨0, Nat.zero_le _, hresq⟩)
      · intro hx
        rcases hu.mp hx with ⟨i, hi, hia⟩ | hmem
        · have hi0 : i = 0 := by omega
          subst hi0
          rw [hresq] at hia
          exact List.mem_append.mpr (Or.inr (by simp [← hia]))
        · exact List.mem_append.mpr (Or.inl hmem)

/-- C1 counterexample: on the well-formed single-address range
192.0.2.1 - 192.0.2.1 (size N = 1), calling `next` N times does not yield
the range's addresses: the single call already fails (the unguarded
`state_.at(0)` lookup on the empty swap table). -/
theorem next_size_one_run_fails :
    WellFormed rOne ∧ addrsInRange rOne = 1 ∧
    run (AddressRangePermutation.init rOne) [0] = none := by
  decide

theorem next_full_run_yields_permutation_witness :
    (WellFormed r5 ∧ 2 ≤ addrsInRange r5 ∧ addrsInRange r5 ≤ 2 ^ 64 ∧
      picks5.length = addrsInRange r5 ∧
      (∀ i, i < addrsInRange r5 - 1 → picks5.getD i 0 + 2 ≤ addrsInRange r5 - i)) ∧
    (∃ outs q,
      run (AddressRangePermutation.init r5) picks5 = some (outs, q) ∧
      outs.map Prod.snd = List.replicate (addrsInRange r5 - 1) false ++ [true] ∧
      (outs.map Prod.fst).Nodup ∧
      (∀ a, a ∈ outs.map Prod.fst ↔ a ∈ fullList r5)) :=
  ⟨⟨by decide, by decide, by decide, by decide, by decide⟩,
   next_full_run_yields_permutation r5 picks5 (by decide) (by decide) (by decide)
     (by decide) (by decide)⟩

theorem winv_next {N : ℕ} {p : AddressRangePermutation} {pick : ℕ}
    {out : IOAddress × Bool × AddressRangePermutation} (hW : WInv N p)
    (hv : p.done_ = false → p.cursor_ ≠ 0 → pick + 1 ≤ p.cursor_)
    (h : p.next pick = some out) : WInv N out.2.2 := by
  obtain ⟨hnd, hkeys, hcur⟩ := hW
  unfold AddressRangePermutation.next at h
  by_cases hd : p.done_
  · simp only [hd, if_true, Option.some.injEq] at h
    rw [← h]
    exact ⟨hnd, hkeys, hcur⟩
  · simp only [hd, if_false, Bool.false_eq_true] at h
    by_cases hc : p.cursor_ = 0
    · rw [if_pos hc] at h
      cases hm : mapFind p.state_ 0 with
      | none => rw [hm] at h; cases h
      | some a =>
        rw [hm] at h
        simp only [Option.some.injEq] at h
        rw [← h]
        exact ⟨hnd, hkeys, hcur⟩
    · rw [if_neg hc] at h
      simp only [Option.some.injEq] at h
      rw [← h]
      have hp : pick + 1 ≤ p.cursor_ := hv (by simpa using hd) hc
      refine ⟨?_, ?_, ?_⟩
      · show (mapKeys (mapAssign p.state_ pick (resolveAddress p p.cursor_))).Nodup
        cases hmf : mapFind p.state_ pick with
        | none =>
          rw [mapKeys_mapAssign_not_found _ _ _ hmf]
          refine List.Nodup.append hnd (List.nodup_singleton _) ?_
          intro x hx hxs
          rw [List.mem_singleton] at hxs
          subst hxs
          exact (mapFind_eq_none_iff _ _).mp hmf hx
        | some b =>
          rw [mapKeys_mapAssign_found _ _ _ (by rw [hmf]; exact Option.noConfusion)]
          exact hnd
      · show ∀ k ∈ mapKeys (mapAssign p.state_ pick (resolveAddress p p.cursor_)), k + 2 ≤ N
        intro k hk
        cases hmf : mapFind p.state_ pick with
        | none =>
          rw [mapKeys_mapAssign_not_found _ _ _ hmf, List.mem_append,
            List.mem_singleton] at hk
          rcases hk with hk | hk
          · exact hkeys k hk
          · subst hk
            omega
        | some b =>
          rw [mapKeys_mapAssign_found _ _ _ (by rw [hmf]; exact Option.noConfusion)] at hk
          exact hkeys k hk
      · show p.cursor_ - 1 + 1 ≤ N
        omega

theorem run_winv {N : ℕ} (picks : List ℕ) :
    ∀ (p : AddressRangePermutation) (outs : List (IOAddress × Bool))
      (q : AddressRangePermutation), WInv N p →
      validPicks p picks = true → run p picks = some (outs, q) → WInv N q := by
  induction picks with
  | nil =>
    intro p outs q hW _ hr
    simp [run] at hr
    rw [← hr.2]
    exact hW
  | cons pk rest ih =>
    intro p outs q hW hv hr
    simp only [validPicks, Bool.and_eq_true] at hv
    obtain ⟨hv1, hv2⟩ := hv
    simp only [run] at hr
    cases hn : p.next pk with
    | none => rw [hn] at hr; cases hr
    | some out =>
      obtain ⟨a, d, p'⟩ := out
      rw [hn] at hr hv2
      simp only at hv2 hr
      have hvp : p.done_ = false → p.cursor_ ≠ 0 → pk + 1 ≤ p.cursor_ := by
        intro hd hc
        rw [if_pos ⟨hd, hc⟩] at hv1
        exact of_decide_eq_true hv1
      have hW' := winv_next hW hvp hn
      cases hrr : run p' rest with
      | none => rw [hrr] at hr; cases hr
      | some res =>
        obtain ⟨outs1, q1⟩ := res
        rw [hrr] at hr
        simp only [Option.some.injEq, Prod.mk.injEq] at hr
        obtain ⟨hr1, hr2⟩ := hr
        rw [← hr2]
        exact ih p' outs1 q1 hW' hv2 hrr

theorem length_le_of_nodup_bounded (l : List ℕ) (m : ℕ) (hnd : l.Nodup)
    (hb : ∀ x ∈ l, x < m) : l.length ≤ m := by
  have h1 : l.toFinset.card = l.length := List.toFinset_card_of_nodup hnd
  have h2 : l.toFinset ⊆ Finset.range m := by
    intro x hx
    rw [Finset.mem_range]
    exact hb x (List.mem_toFinset.mp hx)
  have h3 := Finset.card_le_card h2
  rw [Finset.card_range] at h3
  omega

/-- C5: the swap-record table stays sparse.  Along any run with in-range
picks the table never holds more than size - 1 entries; any single call to
`next` grows the table by at most one entry; and a position absent from the
table resolves to the natural address start + position. -/
theorem swap_table_sparse (r : AddressRange) (picks : List ℕ)
    (outs : List (IOAddress × Bool)) (q : AddressRangePermutation)
    (hw : WellFormed r)
    (hv : validPicks (AddressRangePermutation.init r) picks = true)
    (hrun : run (AddressRangePermutation.init r) picks = some (outs, q)) :
    q.state_.length + 1 ≤ addrsInRange r ∧
    (∀ (p : AddressRangePermutation) (pick : ℕ)
        (out : IOAddress × Bool × AddressRangePermutation),
      p.next pick = some out → out.2.2.state_.length ≤ p.state_.length + 1) ∧
    (∀ (p : AddressRangePermutation) (loc : ℕ), mapFind p.state_ loc = none →
      resolveAddress p loc = offsetAddress p.range_.start_ loc) := by
  refine ⟨?_, ?_, ?_⟩
  · have hW0 : WInv (addrsInRange r) (AddressRangePermutation.init r) := by
      refine ⟨by simp [AddressRangePermutation.init, mapKeys], ?_, ?_⟩
      · intro k hk
        simp [AddressRangePermutation.init, mapKeys] at hk
      · show (addrsInRange r - 1) % 2 ^ 64 + 1 ≤ addrsInRange r
        have h1 := Nat.mod_le (addrsInRange r - 1) (2 ^ 64)
        have h2 := addrsInRange_pos r
        omega
    have hWq := run_winv picks (AddressRangePermutation.init r) outs q hW0 hv hrun
    obtain ⟨hnd, hb, _⟩ := hWq
    have hlen : (mapKeys q.state_).length ≤ addrsInRange r - 1 := by
      apply length_le_of_nodup_bounded _ _ hnd
      intro x hx
      have := hb x hx
      omega
    have hkl : (mapKeys q.state_).length = q.state_.length := by simp [mapKeys]
    have := addrsInRange_pos r
    omega
  · intro p pick out h
    unfold AddressRangePermutation.next at h
    by_cases hd : p.done_
    · simp only [hd, if_true, Option.some.injEq] at h
      rw [← h]
      show p.state_.length ≤ p.state_.length + 1
      omega
    · simp only [hd, if_false, Bool.false_eq_true] at h
      by_cases hc : p.cursor_ = 0
      · rw [if_pos hc] at h
        cases hm : mapFind p.state_ 0 with
        | none => rw [hm] at h; cases h
        | some a =>
          rw [hm] at h
          simp only [Option.some.injEq] at h
          rw [← h]
          show p.state_.length ≤ p.state_.length + 1
          omega
      · rw [if_neg hc] at h
        simp only [Option.some.injEq] at h
        rw [← h]
        exact length_mapAssign _ _ _
  · intro p loc h
    simp [resolveAddress, h]

theorem swap_table_sparse_witness :
    (WellFormed r5 ∧ validPicks (AddressRangePermutation.init r5) [3, 1] = true ∧
      run (AddressRangePermutation.init r5) [3, 1] = some (outsW, qW)) ∧
    (qW.state_.length + 1 ≤ addrsInRange r5 ∧
    (∀ (p : AddressRangePermutation) (pick : ℕ)
        (out : IOAddress × Bool × AddressRangePermutation),
      p.next pick = some out → out.2.2.state_.length ≤ p.state_.length + 1) ∧
    (∀ (p : AddressRangePermutation) (loc : ℕ), mapFind p.state_ loc = none →
      resolveAddress p loc = offsetAddress p.range_.start_ loc)) :=
  ⟨⟨by decide, by decide, by decide⟩,
   swap_table_sparse r5 [3, 1] outsW qW (by decide) (by decide) (by decide)⟩

theorem safe_run (picks : List ℕ) :
    ∀ p : AddressRangePermutation, SafeKey0 p → validPicks p picks = true →
      run p picks ≠ none := by
  induction picks with
  | nil =>
    intro p _ _
    simp [run]
  | cons pk rest ih =>
    intro p hS hv
    simp only [validPicks, Bool.and_eq_true] at hv
    obtain ⟨hv1, hv2⟩ := hv
    simp only [run]
    cases hn : p.next pk with
    | none =>
      exfalso
      unfold AddressRangePermutation.next at hn
      by_cases hd : p.done_
      · simp [hd] at hn
      · simp only [hd, if_false, Bool.false_eq_true] at hn
        by_cases hc : p.cursor_ = 0
        · rw [if_pos hc] at hn
          cases hm : mapFind p.state_ 0 with
          | none => exact hS (by simpa using hd) hc hm
          | some a => rw [hm] at hn; cases hn
        · rw [if_neg hc] at hn
          cases hn
    | some out =>
      obtain ⟨a, d, p'⟩ := out
      rw [hn] at hv2
      simp only at hv2
      have hS' : SafeKey0 p' := by
        unfold AddressRangePermutation.next at hn
        by_cases hd : p.done_
        · simp only [hd, if_true, Option.some.injEq, Prod.mk.injEq] at hn
          rw [← hn.2.2]
          exact hS
        · simp only [hd, if_false, Bool.false_eq_true] at hn
          by_cases hc : p.cursor_ = 0
          · rw [if_pos hc] at hn
            cases hm : mapFind p.state_ 0 with
            | none => rw [hm] at hn; cases hn
            | some b =>
              rw [hm] at hn
              simp only [Option.some.injEq, Prod.mk.injEq] at hn
              rw [← hn.2.2]
              intro hd'
              simp at hd'
          · rw [if_neg hc] at hn
            simp only [Option.some.injEq, Prod.mk.injEq] at hn
            rw [← hn.2.2]
            intro _ hc0
            have hc0' : p.cursor_ - 1 = 0 := hc0
            have hpk : pk + 1 ≤ p.cursor_ := by
              have hd' : p.done_ = false := by simpa using hd
              rw [if_pos ⟨hd', hc⟩] at hv1
              exact of_decide_eq_true hv1
            have hpk0 : pk = 0 := by omega
            subst hpk0
            show mapFind (mapAssign p.state_ 0 (resolveAddress p p.cursor_)) 0 ≠ none
            rw [mapFind_mapAssign_self]
            simp
      have hrr := ih p' hS' hv2
      cases hr : run p' rest with
      | none => exact absurd hr hrr
      | some res =>
        obtain ⟨outs1, q1⟩ := res
        simp [hr]

/-- C10 (amended): for every well-formed range whose size N satisfies
2 ≤ N ≤ 2 ^ 64 and every in-range pick sequence, no call of a run ever
fails: whenever the terminal case cursor == 0 is reached, the last general
step (at cursor == 1, which necessarily drew pick = 0) has already inserted
key 0 into the swap-record table, so the unguarded `state_.at(0)` lookup
succeeds. -/
theorem terminal_lookup_always_succeeds (r : AddressRange) (picks : List ℕ)
    (hw : WellFormed r) (h2 : 2 ≤ addrsInRange r) (h64 : addrsInRange r ≤ 2 ^ 64)
    (hv : validPicks (AddressRangePermutation.init r) picks = true) :
    run (AddressRangePermutation.init r) picks ≠ none := by
  apply safe_run picks _ _ hv
  intro _ h0
  rw [init_cursor_eq_of_le r h64] at h0
  exact absurd h0 (by omega)

theorem terminal_lookup_always_succeeds_witness :
    (WellFormed r5 ∧ 2 ≤ addrsInRange r5 ∧ addrsInRange r5 ≤ 2 ^ 64 ∧
      validPicks (AddressRangePermutation.init r5) [0, 0] = true) ∧
    run (AddressRangePermutation.init r5) [0, 0] ≠ none :=
  ⟨⟨by decide, by decide, by decide, by decide⟩,
   terminal_lookup_always_succeeds r5 [0, 0] (by decide) (by decide) (by decide)
     (by decide)⟩

/-- C10 counterexample: the well-formed IPv6 range with 2 ^ 64 + 1
addresses (size N ≥ 2) starts — after the 64-bit truncation of the cursor —
directly in the terminal case with an empty swap-record table, so the very
first call's unguarded lookup of position 0 fails. -/
theorem terminal_lookup_fails_huge_range :
    WellFormed rHugeA ∧ 2 ≤ addrsInRange rHugeA ∧
    validPicks (AddressRangePermutation.init rHugeA) [0] = true ∧
    run (AddressRangePermutation.init rHugeA) [0] = none := by
  decide

end KeaPermutation
